import Mathlib

/-!
Shallow embedding of `mass_function` from `src/ssimpl/munge.py`.

Real (numpy float) values are modelled by `ℚ`; numpy arrays by `List ℚ`.
The numpy histogram primitive is modelled explicitly (`np_histogram`) and
the four astroML bin-width resolvers are taken as black-box function
parameters (`Resolvers`).  A Python `ValueError` is modelled by
`Except String`; the astropy log by the `List String` of emitted messages.
The `**kwargs` of the source are reduced to the one key the routine
inspects, the `normed` flag forwarded to `np.histogram`.
-/

/-- The bin specification accepted by `mass_function`: an integer bin count,
an explicit edge sequence, or a rule-name string. -/
inductive BinSpec where
  | count (n : ℕ)
  | edges (es : List ℚ)
  | name (s : String)
deriving DecidableEq

/-- Resolved bins handed to the histogram call: either still an integer
count or a concrete edge sequence. -/
inductive HBins where
  | count (n : ℕ)
  | edges (es : List ℚ)
deriving DecidableEq

/-- The four external astroML bin-width resolvers, taken as black boxes:
`bayesian_blocks` returns edges; the other three return `(width, edges)`
as they are called with `return_edges=True` in the source. -/
structure Resolvers where
  bayesian_blocks : List ℚ → List ℚ
  knuth_bin_width : List ℚ → ℚ × List ℚ
  scotts_bin_width : List ℚ → ℚ × List ℚ
  freedman_bin_width : List ℚ → ℚ × List ℚ

/-- Per-bin counts of `np.histogram` over a fixed edge list: bin `i` is the
half-open interval from edge `i` to edge `i+1`, except that the last bin is
closed on the right. -/
def histCounts (a : List ℚ) : List ℚ → List ℕ
  | [] => []
  | [_] => []
  | [e0, e1] => [(a.filter fun x => decide (e0 ≤ x) && decide (x ≤ e1)).length]
  | e0 :: e1 :: e2 :: rest =>
      (a.filter fun x => decide (e0 ≤ x) && decide (x < e1)).length ::
        histCounts a (e1 :: e2 :: rest)

/-- Model of `np.linspace lo hi (n+1)`: the `n + 1` equally spaced edges of `n`
uniform bins covering `[lo, hi]`. -/
def linspace (lo hi : ℚ) (n : ℕ) : List ℚ :=
  (List.range (n + 1)).map fun i : ℕ => lo + (hi - lo) * (i : ℚ) / (n : ℚ)

/-- Minimum of a sample, with the numpy default `0` for the empty sample. -/
def listMin : List ℚ → ℚ
  | [] => 0
  | x :: xs => xs.foldl min x

/-- Maximum of a sample, with the numpy default `1` for the empty sample. -/
def listMax : List ℚ → ℚ
  | [] => 1
  | x :: xs => xs.foldl max x

/-- The outer edges `np.histogram` bins over: the explicit `range` when
given, else the data min/max (`(0, 1)` for an empty sample); a degenerate
interval is widened by `1/2` on each side. -/
def outerEdges (a : List ℚ) (range : Option (ℚ × ℚ)) : ℚ × ℚ :=
  let fl : ℚ × ℚ :=
    match range with
    | some r => r
    | none => (listMin a, listMax a)
  if fl.1 = fl.2 then (fl.1 - 1/2, fl.2 + 1/2) else fl

/-- The edge list `np.histogram` uses: an explicit edge sequence is taken
as is (`range` is ignored in that case, as numpy documents), and an integer
count `n` produces `n + 1` uniform edges over the outer edges. -/
def histEdges (a : List ℚ) (bins : HBins) (range : Option (ℚ × ℚ)) : List ℚ :=
  match bins with
  | .edges es => es
  | .count n =>
      let fl := outerEdges a range
      linspace fl.1 fl.2 n

/-- Model of `np.histogram a bins range normed`, returning `(vals, edges)` with the
counts already cast to rationals.  `normed=True` would rescale the counts
to a probability density; `mass_function` always forces it off, so only the
fallback branch is ever exercised by the routine under study. -/
def np_histogram (a : List ℚ) (bins : HBins) (range : Option (ℚ × ℚ))
    (normed : Option Bool) : List ℚ × List ℚ :=
  let edges := histEdges a bins range
  let counts := histCounts a edges
  match normed with
  | some true =>
      let total : ℚ := (counts.sum : ℕ)
      ((counts.zip (edges.zip edges.tail)).map
          fun p => (p.1 : ℚ) / (total * (p.2.2 - p.2.1)),
        edges)
  | _ => (counts.map fun c : ℕ => (c : ℚ), edges)

/-- The value of `np.dstack((centers, vals)).squeeze()`: the stack has
shape `(1, n, 2)`, so the squeeze collapses to a flat pair when there is
exactly one bin and to an `n × 2` table otherwise. -/
inductive MF where
  | pair (c v : ℚ)
  | table (rows : List (ℚ × ℚ))
deriving DecidableEq

/-- Squeeze of the stacked `(center, value)` columns. -/
def squeezeMF : List (ℚ × ℚ) → MF
  | [r] => .pair r.1 r.2
  | rs => .table rs

/-- The `(center, value)` rows of a result, undoing the squeeze. -/
def MF.rows : MF → List (ℚ × ℚ)
  | .pair c v => [(c, v)]
  | .table rs => rs

/-- The rule-name strings of the pre-filter membership test at lines 45-48
of `src/ssimpl/munge.py`. -/
def ruleNames : List String :=
  ["blocks", "knuth", "knuths", "scott", "scotts", "freedman", "freedmans"]

/-- The sample actually histogrammed: line 49 of the source replaces `mass`
by its restriction to `[range.1, range.2]` exactly when a range is given
and the bin specification is a string in `ruleNames`. -/
def effSample (mass : List ℚ) (bins : BinSpec) (range : Option (ℚ × ℚ)) :
    List ℚ :=
  match range, bins with
  | some r, .name s =>
      if s ∈ ruleNames then
        mass.filter fun x => decide (r.1 ≤ x) && decide (x ≤ r.2)
      else mass
  | _, _ => mass

/-- Lines 41-43 of the source: a `normed` key present in `kwargs` is
forced to `False` before the histogram call. -/
def normedEff (normed : Option Bool) : Option Bool :=
  if normed.isSome then some false else none

/-- Lines 66-71 of the source: from the histogram output `(vals, edges)`,
take `width = edges[1] - edges[0]`, `centers = edges[:-1] + width/2`,
`vals = vals / (volume * width)`, and squeeze the stacked columns. -/
def assemble (volume : ℚ) (ve : List ℚ × List ℚ) : MF :=
  let vals := ve.1
  let edges := ve.2
  let width := edges.getD 1 0 - edges.getD 0 0
  let radius := width / 2
  let centers := edges.dropLast.map fun e => e + radius
  let vals2 := vals.map fun v => v / (volume * width)
  squeezeMF (centers.zip vals2)

/-- Embedding of `mass_function(mass, volume, bins, range=None, return_edges=False,
**kwargs)` from `src/ssimpl/munge.py`.  Returns the result (or the
`ValueError`) paired with the log messages emitted along the way.  The
result itself is the squeezed `(center, value)` stack, together with the
bin edges when `return_edges` is set. -/
def mass_function (R : Resolvers) (mass : List ℚ) (volume : ℚ)
    (bins : BinSpec) (range : Option (ℚ × ℚ)) (return_edges : Bool)
    (normed : Option Bool) :
    Except String (MF × Option (List ℚ)) × List String :=
  let log0 : List String :=
    if normed.isSome then ["Turned of normed kwarg in mass_function()"] else []
  let normed1 := normedEff normed
  let mass1 := effSample mass bins range
  let step : Except String HBins × List String :=
    match bins with
    | .count n => (.ok (.count n), log0)
    | .edges es => (.ok (.edges es), log0)
    | .name s =>
        let log1 := log0 ++ ["Calculating bin widths using " ++ s ++ " method..."]
        if s = "blocks" then
          (.ok (.edges (R.bayesian_blocks mass1)), log1 ++ ["...done"])
        else if s = "knuth" ∨ s = "knuths" then
          (.ok (.edges (R.knuth_bin_width mass1).2), log1 ++ ["...done"])
        else if s = "scott" ∨ s = "scotts" then
          (.ok (.edges (R.scotts_bin_width mass1).2), log1 ++ ["...done"])
        else if s = "freedman" ∨ s = "freedmans" then
          (.ok (.edges (R.freedman_bin_width mass1).2), log1 ++ ["...done"])
        else (.error ("unrecognized bin code: " ++ s), log1)
  match step with
  | (.error e, lg) => (.error e, lg)
  | (.ok hbins, lg) =>
      let ve := np_histogram mass1 hbins range normed1
      (.ok (assemble volume ve, if return_edges then some ve.2 else none), lg)

/-- A concrete resolver bundle used for closed-form witnesses and
counterexamples: every rule returns the fixed two-edge list `[0, 1]`. -/
def trivialResolvers : Resolvers where
  bayesian_blocks := fun _ => [0, 1]
  knuth_bin_width := fun _ => (1, [0, 1])
  scotts_bin_width := fun _ => (1, [0, 1])
  freedman_bin_width := fun _ => (1, [0, 1])


/-! ### Basic lemmas -/

theorem rows_squeezeMF : ∀ rs : List (ℚ × ℚ), (squeezeMF rs).rows = rs
  | [] => rfl
  | [_] => by simp [squeezeMF, MF.rows]
  | _ :: _ :: _ => rfl

theorem mf_name_not_mem (R : Resolvers) (mass : List ℚ) (volume : ℚ)
    (rng : Option (ℚ × ℚ)) (re : Bool) (nm : Option Bool) {s : String}
    (hs : s ∉ ruleNames) :
    (mass_function R mass volume (.name s) rng re nm).1 =
      Except.error ("unrecognized bin code: " ++ s) := by
  have h1 : s ≠ "blocks" := by rintro rfl; exact hs (by decide)
  have h2 : s ≠ "knuth" := by rintro rfl; exact hs (by decide)
  have h3 : s ≠ "knuths" := by rintro rfl; exact hs (by decide)
  have h4 : s ≠ "scott" := by rintro rfl; exact hs (by decide)
  have h5 : s ≠ "scotts" := by rintro rfl; exact hs (by decide)
  have h6 : s ≠ "freedman" := by rintro rfl; exact hs (by decide)
  have h7 : s ≠ "freedmans" := by rintro rfl; exact hs (by decide)
  simp [mass_function, h1, h2, h3, h4, h5, h6, h7]

theorem mf_name_mem (R : Resolvers) (mass : List ℚ) (volume : ℚ)
    (rng : Option (ℚ × ℚ)) (re : Bool) (nm : Option Bool) {s : String}
    (hs : s ∈ ruleNames) :
    ∃ out, (mass_function R mass volume (.name s) rng re nm).1 =
      Except.ok out := by
  simp only [ruleNames, List.mem_cons, List.not_mem_nil, or_false] at hs
  rcases hs with rfl | rfl | rfl | rfl | rfl | rfl | rfl <;>
    exact ⟨_, rfl⟩

/-! ### Claim theorems: bin-code dispatch (C1, C10) -/

/-- C1 (amended): every string bin specification outside the seven-element
recognized list `ruleNames` makes `mass_function` raise a `ValueError`
whose message contains the offending code, and each of the seven
recognized names (`blocks`, plus `knuth`, `scott`, `freedman` each with
and without a trailing `s`) raises no such error.  (The claim counted
`4 × 2 = 8` recognized spellings; the rule `blocks` only has one.) -/
theorem C1_bin_code_validation (R : Resolvers) (mass : List ℚ) (volume : ℚ)
    (rng : Option (ℚ × ℚ)) (re : Bool) (nm : Option Bool) (s : String) :
    (s ∉ ruleNames →
      (mass_function R mass volume (.name s) rng re nm).1 =
        Except.error ("unrecognized bin code: " ++ s) ∧
      ∃ pre post, "unrecognized bin code: " ++ s = pre ++ s ++ post) ∧
    (s ∈ ruleNames →
      ∃ out, (mass_function R mass volume (.name s) rng re nm).1 =
        Except.ok out) := by
  refine ⟨fun hs => ⟨mf_name_not_mem R mass volume rng re nm hs,
    "unrecognized bin code: ", "", by simp⟩, fun hs => mf_name_mem R mass volume rng re nm hs⟩

/-- Witness for C1 at the concrete codes `"bogus"` (rejected) and
`"knuth"` (accepted). -/
theorem C1_bin_code_validation_witness :
    ((mass_function trivialResolvers [0, 1] 1 (.name "bogus") none false none).1 =
        Except.error ("unrecognized bin code: " ++ "bogus") ∧
      ∃ pre post, "unrecognized bin code: " ++ "bogus" = pre ++ "bogus" ++ post) ∧
    (∃ out, (mass_function trivialResolvers [0, 1] 1 (.name "knuth") none false none).1 =
      Except.ok out) :=
  ⟨(C1_bin_code_validation trivialResolvers [0, 1] 1 none false none "bogus").1 (by decide),
    (C1_bin_code_validation trivialResolvers [0, 1] 1 none false none "knuth").2 (by decide)⟩

/-- Counterexample to C1 as stated: `"block"` — the spelling of the first
rule without its trailing `s`, hence among the `4 × 2` names counted as recognized
names — raises the invalid-bin-code `ValueError`. -/
theorem C1_counterexample :
    (mass_function trivialResolvers [0, 1] 1 (.name "block") none false none).1 =
      Except.error ("unrecognized bin code: " ++ "block") := rfl

/-- C10: an unrecognized string bin code makes `mass_function` fail with
the invalid-bin-code error whatever the sample, volume, range, resolvers
and remaining options are (so before any resolver or histogram runs and
independently of range filtering), and the strings that dispatch to an
`Except.ok` result are exactly the members of the pre-filter list
`ruleNames`. -/
theorem C10_invalid_code_prevalidation (R : Resolvers) (mass : List ℚ)
    (volume : ℚ) (rng : Option (ℚ × ℚ)) (re : Bool) (nm : Option Bool)
    (s : String) :
    (s ∉ ruleNames →
      (mass_function R mass volume (.name s) rng re nm).1 =
        Except.error ("unrecognized bin code: " ++ s)) ∧
    ((∃ out, (mass_function R mass volume (.name s) rng re nm).1 =
        Except.ok out) ↔ s ∈ ruleNames) := by
  refine ⟨fun hs => mf_name_not_mem R mass volume rng re nm hs, ?_, ?_⟩
  · rintro ⟨out, hout⟩
    by_contra hs
    rw [mf_name_not_mem R mass volume rng re nm hs] at hout
    cases hout
  · exact fun hs => mf_name_mem R mass volume rng re nm hs

/-- Witness for C10 at the concrete codes `"bogus"` and `"scotts"`. -/
theorem C10_invalid_code_prevalidation_witness :
    (mass_function trivialResolvers [5] 3 (.name "bogus") (some (0, 1)) true none).1 =
      Except.error ("unrecognized bin code: " ++ "bogus") ∧
    "scotts" ∈ ruleNames ∧
    ∃ out, (mass_function trivialResolvers [5] 3 (.name "scotts") (some (0, 1)) true none).1 =
      Except.ok out :=
  ⟨(C10_invalid_code_prevalidation trivialResolvers [5] 3 (some (0, 1)) true none "bogus").1
      (by decide),
    by decide,
    (C10_invalid_code_prevalidation trivialResolvers [5] 3 (some (0, 1)) true none "scotts").2.mpr
      (by decide)⟩

/-! ### Claim theorems: worked example (C5) and non-uniform centers (C2) -/

/-- C5: on `sample = [1,1,1,2,2,3,4,5,5,5,5]`, `volume = 2`, `bin_spec = 5`,
the histogram counts are `[3,2,1,1,4]` over edges `[1,1.8,2.6,3.4,4.2,5]`,
the width is `0.8`, and `mass_function` returns densities
`[1.875,1.25,0.625,0.625,2.5]` at centers `[1.4,2.2,3,3.8,4.6]`. -/
theorem C5_worked_example :
    np_histogram [1, 1, 1, 2, 2, 3, 4, 5, 5, 5, 5] (.count 5) none none =
      ([3, 2, 1, 1, 4], [1, 9/5, 13/5, 17/5, 21/5, 5]) ∧
    (np_histogram [1, 1, 1, 2, 2, 3, 4, 5, 5, 5, 5] (.count 5) none none).2.getD 1 0 -
        (np_histogram [1, 1, 1, 2, 2, 3, 4, 5, 5, 5, 5] (.count 5) none none).2.getD 0 0 =
      (4/5 : ℚ) ∧
    (mass_function trivialResolvers [1, 1, 1, 2, 2, 3, 4, 5, 5, 5, 5] 2 (.count 5)
        none true none).1 =
      Except.ok (MF.table [(7/5, 15/8), (11/5, 5/4), (3, 5/8), (19/5, 5/8), (23/5, 5/2)],
        some [1, 9/5, 13/5, 17/5, 21/5, 5]) := by
  have hedge : histEdges [1, 1, 1, 2, 2, 3, 4, 5, 5, 5, 5] (.count 5) none =
      [1, 9/5, 13/5, 17/5, 21/5, 5] := by
    have hout : outerEdges [1, 1, 1, 2, 2, 3, 4, 5, 5, 5, 5] none = (1, 5) := by decide
    simp only [histEdges, hout]
    norm_num [linspace, List.range_succ]
  have hcnt : histCounts [1, 1, 1, 2, 2, 3, 4, 5, 5, 5, 5] [1, 9/5, 13/5, 17/5, 21/5, 5] =
      [3, 2, 1, 1, 4] := by
    norm_num [histCounts, List.filter]
  have hnp : np_histogram [1, 1, 1, 2, 2, 3, 4, 5, 5, 5, 5] (.count 5) none none =
      ([3, 2, 1, 1, 4], [1, 9/5, 13/5, 17/5, 21/5, 5]) := by
    simp only [np_histogram, hedge, hcnt]
    norm_num
  refine ⟨hnp, by rw [hnp]; norm_num [List.getD], ?_⟩
  simp only [mass_function, effSample, normedEff, Option.isSome_none, Bool.false_eq_true,
    if_false]
  rw [hnp]
  norm_num [assemble, squeezeMF]

/-- Counterexample to C2 as stated: with the non-uniform explicit edges
`[0, 1, 3]` the second returned center is `3/2` (first edge of the bin plus
half the FIRST interval width), not the bin midpoint `(1 + 3) / 2 = 2`. -/
theorem C2_counterexample :
    (mass_function trivialResolvers [] 1 (.edges [0, 1, 3]) none true none).1 =
      Except.ok (MF.table [(1/2, 0), (3/2, 0)], some [0, 1, 3]) ∧
    ((3 : ℚ)/2 ≠ (1 + 3)/2) := by
  refine ⟨?_, by norm_num⟩
  have hnp : np_histogram [] (.edges [0, 1, 3]) none none = ([0, 0], [0, 1, 3]) := by
    norm_num [np_histogram, histEdges, histCounts, List.filter]
  simp only [mass_function, effSample, normedEff, Option.isSome_none, Bool.false_eq_true,
    if_false]
  rw [hnp]
  norm_num [assemble, squeezeMF]

/-! ### Indexing lemmas for the assembled result -/

theorem getD_zip (l1 l2 : List ℚ) (i : ℕ) (h1 : i < l1.length)
    (h2 : i < l2.length) :
    (l1.zip l2).getD i (0, 0) = (l1.getD i 0, l2.getD i 0) := by
  rw [List.getD_eq_getElem, List.getElem_zip, List.getD_eq_getElem _ _ h1,
    List.getD_eq_getElem _ _ h2]
  simp [List.length_zip]
  omega

theorem getD_dropLast (es : List ℚ) (i : ℕ) (h : i < es.length - 1) :
    es.dropLast.getD i 0 = es.getD i 0 := by
  have h1 : i < es.dropLast.length := by simp [List.length_dropLast]; omega
  have h2 : i < es.length := by omega
  rw [List.getD_eq_getElem _ _ h1, List.getD_eq_getElem _ _ h2,
    List.getElem_dropLast]

theorem getD_map (l : List ℚ) (f : ℚ → ℚ) (i : ℕ) (h : i < l.length) :
    (l.map f).getD i 0 = f (l.getD i 0) := by
  have h2 : i < (l.map f).length := by simpa using h
  rw [List.getD_eq_getElem _ _ h2, List.getElem_map, ← List.getD_eq_getElem _ _ h]

theorem getD_map_cast (l : List ℕ) (i : ℕ) (h : i < l.length) :
    ((l.map fun c : ℕ => (c : ℚ)).getD i 0) = ((l.getD i 0 : ℕ) : ℚ) := by
  have h2 : i < (l.map fun c : ℕ => (c : ℚ)).length := by simpa using h
  rw [List.getD_eq_getElem _ _ h2, List.getElem_map, ← List.getD_eq_getElem _ _ h]

theorem histCounts_length (a : List ℚ) :
    ∀ es : List ℚ, (histCounts a es).length = es.length - 1
  | [] => rfl
  | [_] => rfl
  | [_, _] => rfl
  | e0 :: e1 :: e2 :: rest => by
      simp only [histCounts, List.length_cons, histCounts_length a (e1 :: e2 :: rest)]
      omega

theorem assemble_rows (volume : ℚ) (vals es : List ℚ) :
    (assemble volume (vals, es)).rows =
      (es.dropLast.map fun e => e + (es.getD 1 0 - es.getD 0 0) / 2).zip
        (vals.map fun v => v / (volume * (es.getD 1 0 - es.getD 0 0))) := by
  simp only [assemble, rows_squeezeMF]

theorem assemble_rows_length (volume : ℚ) (vals es : List ℚ)
    (hv : vals.length = es.length - 1) :
    (assemble volume (vals, es)).rows.length = es.length - 1 := by
  simp [assemble_rows, List.length_zip, List.length_map, List.length_dropLast, hv]

theorem assemble_center_getD (volume : ℚ) (vals es : List ℚ) (i : ℕ)
    (hv : vals.length = es.length - 1) (hi : i < es.length - 1) :
    ((assemble volume (vals, es)).rows.getD i (0, 0)).1 =
      es.getD i 0 + (es.getD 1 0 - es.getD 0 0) / 2 := by
  rw [assemble_rows, getD_zip]
  · simp only
    rw [getD_map, getD_dropLast es i hi]
    simp [List.length_dropLast]; omega
  · simp [List.length_dropLast]; omega
  · simp [hv]; omega

theorem assemble_val_getD (volume : ℚ) (vals es : List ℚ) (i : ℕ)
    (hv : vals.length = es.length - 1) (hi : i < es.length - 1) :
    ((assemble volume (vals, es)).rows.getD i (0, 0)).2 =
      vals.getD i 0 / (volume * (es.getD 1 0 - es.getD 0 0)) := by
  rw [assemble_rows, getD_zip]
  · simp only
    rw [getD_map]
    omega
  · simp [List.length_dropLast]; omega
  · simp [hv]; omega

/-! ### Run lemmas for `mass_function` -/

theorem np_histogram_normedEff (a : List ℚ) (b : HBins) (r : Option (ℚ × ℚ))
    (nm : Option Bool) :
    np_histogram a b r (normedEff nm) =
      ((histCounts a (histEdges a b r)).map fun c : ℕ => (c : ℚ),
        histEdges a b r) := by
  cases nm <;> rfl

theorem mf_edges_run (R : Resolvers) (mass : List ℚ) (volume : ℚ)
    (es : List ℚ) (rng : Option (ℚ × ℚ)) (nm : Option Bool) :
    mass_function R mass volume (.edges es) rng true nm =
      (Except.ok (assemble volume ((histCounts mass es).map fun c : ℕ => (c : ℚ), es),
          some es),
        if nm.isSome then ["Turned of normed kwarg in mass_function()"] else []) := by
  cases rng <;> cases nm <;> rfl

/-! ### Claim theorems: centering and normalization (C3, C2) -/

/-- C3: `mass_function` computes a single `width = edges[1] - edges[0]`
from the first interval only, returns one row per bin with center
`edges[i] + width / 2`, and density `count[i] / (volume * width)` with the
same first-interval width for every bin, whatever the actual per-bin
widths are. -/
theorem C3_uniform_width_normalization (R : Resolvers) (mass : List ℚ)
    (volume : ℚ) (es : List ℚ) (rng : Option (ℚ × ℚ)) (nm : Option Bool)
    (i : ℕ) (hi : i < es.length - 1) :
    ∃ mf lg, mass_function R mass volume (.edges es) rng true nm =
        (Except.ok (mf, some es), lg) ∧
      mf.rows.length = es.length - 1 ∧
      (mf.rows.getD i (0, 0)).1 = es.getD i 0 + (es.getD 1 0 - es.getD 0 0) / 2 ∧
      (mf.rows.getD i (0, 0)).2 =
        ((histCounts mass es).getD i 0 : ℚ) /
          (volume * (es.getD 1 0 - es.getD 0 0)) := by
  refine ⟨_, _, mf_edges_run R mass volume es rng nm, ?_, ?_, ?_⟩
  · exact assemble_rows_length _ _ _ (by simp [histCounts_length])
  · exact assemble_center_getD _ _ _ _ (by simp [histCounts_length]) hi
  · rw [assemble_val_getD _ _ _ _ (by simp [histCounts_length]) hi,
      getD_map_cast _ _ (by rw [histCounts_length]; exact hi)]

/-- Witness for C3 on the non-uniform edges `[0, 1, 3]` at bin `1`. -/
theorem C3_uniform_width_normalization_witness :
    ∃ mf lg, mass_function trivialResolvers [2] 2 (.edges [0, 1, 3]) none true none =
        (Except.ok (mf, some [0, 1, 3]), lg) ∧
      mf.rows.length = [(0 : ℚ), 1, 3].length - 1 ∧
      (mf.rows.getD 1 (0, 0)).1 =
        [(0 : ℚ), 1, 3].getD 1 0 +
          ([(0 : ℚ), 1, 3].getD 1 0 - [(0 : ℚ), 1, 3].getD 0 0) / 2 ∧
      (mf.rows.getD 1 (0, 0)).2 =
        ((histCounts [2] [0, 1, 3]).getD 1 0 : ℚ) /
          (2 * ([(0 : ℚ), 1, 3].getD 1 0 - [(0 : ℚ), 1, 3].getD 0 0)) :=
  C3_uniform_width_normalization trivialResolvers [2] 2 [0, 1, 3] none none 1
    (by norm_num)

/-- C2 (amended): each returned center is the left edge of its bin plus
half of the width `edges[1] - edges[0]` of the FIRST bin; this equals the
midpoint `(edges[i] + edges[i+1]) / 2` of the two edges of bin `i` exactly
when bin `i` has the same width as the first bin — in particular for
uniform edges — but not for general non-uniform edges. -/
theorem C2_centers_midpoint (R : Resolvers) (mass : List ℚ) (volume : ℚ)
    (es : List ℚ) (rng : Option (ℚ × ℚ)) (nm : Option Bool) (i : ℕ)
    (hi : i < es.length - 1)
    (huni : es.getD (i + 1) 0 - es.getD i 0 = es.getD 1 0 - es.getD 0 0) :
    ∃ mf lg, mass_function R mass volume (.edges es) rng true nm =
        (Except.ok (mf, some es), lg) ∧
      (mf.rows.getD i (0, 0)).1 = (es.getD i 0 + es.getD (i + 1) 0) / 2 := by
  refine ⟨_, _, mf_edges_run R mass volume es rng nm, ?_⟩
  rw [assemble_center_getD _ _ _ _ (by simp [histCounts_length]) hi, ← huni]
  ring

/-- Witness for the amended C2 on the uniform edges `[1, 2, 3]` at bin `1`. -/
theorem C2_centers_midpoint_witness :
    ∃ mf lg, mass_function trivialResolvers [2] 1 (.edges [1, 2, 3]) none true none =
        (Except.ok (mf, some [1, 2, 3]), lg) ∧
      (mf.rows.getD 1 (0, 0)).1 =
        ([(1 : ℚ), 2, 3].getD 1 0 + [(1 : ℚ), 2, 3].getD (1 + 1) 0) / 2 :=
  C2_centers_midpoint trivialResolvers [2] 1 [1, 2, 3] none none 1
    (by norm_num) (by norm_num)

/-! ### Partition of the histogrammed range into bins -/

/-- Last edge of an edge list (`0` for the empty list). -/
def lastEdge : List ℚ → ℚ
  | [] => 0
  | [e] => e
  | _ :: e1 :: rest => lastEdge (e1 :: rest)

theorem head_le_lastEdge :
    ∀ (e0 : ℚ) (es : List ℚ), List.Chain' (· ≤ ·) (e0 :: es) →
      e0 ≤ lastEdge (e0 :: es)
  | _, [], _ => le_refl _
  | e0, e1 :: es, h => by
      have h01 : e0 ≤ e1 := (List.chain'_cons.mp h).1
      have ih := head_le_lastEdge e1 es (List.chain'_cons.mp h).2
      exact le_trans h01 ih

theorem count_split (a : List ℚ) (e0 e1 el : ℚ) (h01 : e0 ≤ e1)
    (h1l : e1 ≤ el) :
    (a.filter fun x => decide (e0 ≤ x) && decide (x ≤ el)).length =
      (a.filter fun x => decide (e0 ≤ x) && decide (x < e1)).length +
        (a.filter fun x => decide (e1 ≤ x) && decide (x ≤ el)).length := by
  induction a with
  | nil => rfl
  | cons x xs ih =>
      rcases le_or_lt e1 x with h1 | h1
      · have h1' : ¬(x < e1) := not_lt.mpr h1
        have h3 : e0 ≤ x := le_trans h01 h1
        by_cases h2 : x ≤ el <;>
          simp [List.filter_cons, h1, h1', h2, h3, ih] <;> omega
      · have h1' : ¬(e1 ≤ x) := not_le.mpr h1
        have h2 : x ≤ el := le_trans (le_of_lt h1) h1l
        by_cases h3 : e0 ≤ x <;>
          simp [List.filter_cons, h1, h1', h2, h3, ih] <;> omega

theorem histCounts_sum (a : List ℚ) :
    ∀ es : List ℚ, List.Chain' (· ≤ ·) es → 2 ≤ es.length →
      (histCounts a es).sum =
        (a.filter fun x =>
          decide (es.getD 0 0 ≤ x) && decide (x ≤ lastEdge es)).length
  | [], _, h2 => by simp at h2
  | [_], _, h2 => by simp at h2
  | [e0, e1], hch, _ => by simp [histCounts, lastEdge]
  | e0 :: e1 :: e2 :: rest, hch, _ => by
      have h01 : e0 ≤ e1 := (List.chain'_cons.mp hch).1
      have hchTail : List.Chain' (· ≤ ·) (e1 :: e2 :: rest) :=
        (List.chain'_cons.mp hch).2
      have h1l : e1 ≤ lastEdge (e1 :: e2 :: rest) :=
        head_le_lastEdge e1 (e2 :: rest) hchTail
      have ih := histCounts_sum a (e1 :: e2 :: rest) hchTail (by simp)
      have hsplit := count_split a e0 e1 (lastEdge (e1 :: e2 :: rest)) h01 h1l
      calc (histCounts a (e0 :: e1 :: e2 :: rest)).sum
          = (a.filter fun x => decide (e0 ≤ x) && decide (x < e1)).length +
              (histCounts a (e1 :: e2 :: rest)).sum := by
            simp [histCounts]
        _ = (a.filter fun x => decide (e0 ≤ x) && decide (x < e1)).length +
              (a.filter fun x => decide (e1 ≤ x) &&
                decide (x ≤ lastEdge (e1 :: e2 :: rest))).length := by
            rw [ih]; rfl
        _ = (a.filter fun x => decide (e0 ≤ x) &&
              decide (x ≤ lastEdge (e1 :: e2 :: rest))).length := hsplit.symm
        _ = _ := by rfl

theorem mf_run_count (R : Resolvers) (mass : List ℚ) (volume : ℚ) (n : ℕ)
    (rng : Option (ℚ × ℚ)) (re : Bool) (nm : Option Bool) :
    mass_function R mass volume (.count n) rng re nm =
      (Except.ok
          (assemble volume
            (np_histogram (effSample mass (.count n) rng) (.count n) rng (normedEff nm)),
            if re then
              some (np_histogram (effSample mass (.count n) rng) (.count n) rng
                (normedEff nm)).2
            else none),
        if nm.isSome then ["Turned of normed kwarg in mass_function()"] else []) := rfl

theorem mf_run_edges (R : Resolvers) (mass : List ℚ) (volume : ℚ)
    (es : List ℚ) (rng : Option (ℚ × ℚ)) (re : Bool) (nm : Option Bool) :
    mass_function R mass volume (.edges es) rng re nm =
      (Except.ok
          (assemble volume
            (np_histogram (effSample mass (.edges es) rng) (.edges es) rng (normedEff nm)),
            if re then
              some (np_histogram (effSample mass (.edges es) rng) (.edges es) rng
                (normedEff nm)).2
            else none),
        if nm.isSome then ["Turned of normed kwarg in mass_function()"] else []) := rfl

theorem mass_function_ok_inv (R : Resolvers) (mass : List ℚ) (volume : ℚ)
    (bins : BinSpec) (rng : Option (ℚ × ℚ)) (re : Bool) (nm : Option Bool)
    {mf : MF} {oes : Option (List ℚ)} {lg : List String}
    (h : mass_function R mass volume bins rng re nm = (Except.ok (mf, oes), lg)) :
    ∃ hbins : HBins,
      mf = assemble volume
        (np_histogram (effSample mass bins rng) hbins rng (normedEff nm)) ∧
      oes = if re then
          some (np_histogram (effSample mass bins rng) hbins rng (normedEff nm)).2
        else none := by
  cases bins with
  | count n =>
      rw [mf_run_count] at h
      simp only [Prod.mk.injEq, Except.ok.injEq] at h
      exact ⟨.count n, h.1.1.symm, h.1.2.symm⟩
  | edges es =>
      rw [mf_run_edges] at h
      simp only [Prod.mk.injEq, Except.ok.injEq] at h
      exact ⟨.edges es, h.1.1.symm, h.1.2.symm⟩
  | name s =>
      by_cases hmem : s ∈ ruleNames
      · simp only [ruleNames, List.mem_cons, List.not_mem_nil, or_false] at hmem
        rcases hmem with rfl | rfl | rfl | rfl | rfl | rfl | rfl
        · exact ⟨.edges (R.bayesian_blocks (effSample mass (.name "blocks") rng)),
            by cases h; exact rfl, by cases h; exact rfl⟩
        · exact ⟨.edges (R.knuth_bin_width (effSample mass (.name "knuth") rng)).2,
            by cases h; exact rfl, by cases h; exact rfl⟩
        · exact ⟨.edges (R.knuth_bin_width (effSample mass (.name "knuths") rng)).2,
            by cases h; exact rfl, by cases h; exact rfl⟩
        · exact ⟨.edges (R.scotts_bin_width (effSample mass (.name "scott") rng)).2,
            by cases h; exact rfl, by cases h; exact rfl⟩
        · exact ⟨.edges (R.scotts_bin_width (effSample mass (.name "scotts") rng)).2,
            by cases h; exact rfl, by cases h; exact rfl⟩
        · exact ⟨.edges (R.freedman_bin_width (effSample mass (.name "freedman") rng)).2,
            by cases h; exact rfl, by cases h; exact rfl⟩
        · exact ⟨.edges (R.freedman_bin_width (effSample mass (.name "freedmans") rng)).2,
            by cases h; exact rfl, by cases h; exact rfl⟩
      · have herr := mf_name_not_mem R mass volume rng re nm hmem
        rw [congrArg Prod.fst h] at herr
        cases herr

theorem zip_snd_map_sum (f : ℚ → ℚ) :
    ∀ l1 l2 : List ℚ, l2.length ≤ l1.length →
      ((l1.zip l2).map fun r => f r.2).sum = (l2.map f).sum
  | _, [], _ => by simp
  | [], _ :: _, h => by simp at h
  | x :: l1, y :: l2, h => by
      simp only [List.zip_cons_cons, List.map_cons, List.sum_cons,
        zip_snd_map_sum f l1 l2 (by simpa using h)]

theorem assemble_sum (volume : ℚ) (cnts : List ℕ) (es : List ℚ)
    (hv : volume ≠ 0) (hw : es.getD 1 0 - es.getD 0 0 ≠ 0)
    (hlen : cnts.length = es.length - 1) :
    ((assemble volume (cnts.map (fun c : ℕ => (c : ℚ)), es)).rows.map
        fun r => r.2 * (es.getD 1 0 - es.getD 0 0) * volume).sum =
      ((cnts.sum : ℕ) : ℚ) := by
  have hvw : volume * (es.getD 1 0 - es.getD 0 0) ≠ 0 := mul_ne_zero hv hw
  rw [assemble_rows,
    zip_snd_map_sum (fun v => v * (es.getD 1 0 - es.getD 0 0) * volume) _ _
      (by simp [List.length_map, List.length_dropLast, hlen])]
  clear hlen
  induction cnts with
  | nil => simp
  | cons c t ih =>
      have hc : ((c : ℚ)) / (volume * (es.getD 1 0 - es.getD 0 0)) *
          (es.getD 1 0 - es.getD 0 0) * volume = (c : ℚ) := by
        have h1 : ((c : ℚ)) / (volume * (es.getD 1 0 - es.getD 0 0)) *
            (es.getD 1 0 - es.getD 0 0) * volume =
            (c : ℚ) * ((volume * (es.getD 1 0 - es.getD 0 0)) /
              (volume * (es.getD 1 0 - es.getD 0 0))) := by ring
        rw [h1, div_self hvw, mul_one]
      simp only [List.map_cons, List.sum_cons, ih, Nat.cast_add, hc]

/-! ### Claim theorem: density round-trip (C4) -/

/-- C4: for every successful `mass_function` run that returns its edges
(with the edges non-decreasing, a nonzero first-interval width and a
nonzero volume), the sum over all bins of `density * width * volume` —
with `width = edges[1] - edges[0]` as computed in the routine — equals the
number of histogrammed sample values lying within the histogrammed range
`[edges[0], edges[-1]]`. -/
theorem C4_density_roundtrip (R : Resolvers) (mass : List ℚ) (volume : ℚ)
    (bins : BinSpec) (rng : Option (ℚ × ℚ)) (nm : Option Bool)
    (mf : MF) (es : List ℚ) (lg : List String)
    (hrun : mass_function R mass volume bins rng true nm =
      (Except.ok (mf, some es), lg))
    (hch : List.Chain' (· ≤ ·) es) (h2 : 2 ≤ es.length)
    (hv : volume ≠ 0) (hw : es.getD 1 0 - es.getD 0 0 ≠ 0) :
    (mf.rows.map fun r => r.2 * (es.getD 1 0 - es.getD 0 0) * volume).sum =
      (((effSample mass bins rng).filter fun x =>
        decide (es.getD 0 0 ≤ x) && decide (x ≤ lastEdge es)).length : ℕ) := by
  obtain ⟨hbins, hmf, hoes⟩ := mass_function_ok_inv R mass volume bins rng true nm hrun
  rw [np_histogram_normedEff] at hmf
  simp only [np_histogram_normedEff, if_true] at hoes
  have hE : es = histEdges (effSample mass bins rng) hbins rng := Option.some.inj hoes
  subst hE
  subst hmf
  rw [assemble_sum volume _ _ hv hw (by simp [List.length_map, histCounts_length])]
  rw [histCounts_sum (effSample mass bins rng) _ hch h2]

/-- Witness for C4: explicit edges `[0, 1, 3]`, sample `[1/2, 2, 5]`
(the `5` lies outside the histogrammed range), volume `2`. -/
theorem C4_density_roundtrip_witness :
    ((MF.table [(1/2, 1/2), (3/2, 1/2)]).rows.map
        fun r => r.2 * ([(0 : ℚ), 1, 3].getD 1 0 - [(0 : ℚ), 1, 3].getD 0 0) * 2).sum =
      ((([(1 : ℚ)/2, 2, 5].filter fun x =>
        decide ([(0 : ℚ), 1, 3].getD 0 0 ≤ x) &&
          decide (x ≤ lastEdge [0, 1, 3])).length : ℕ) : ℚ) := by
  have hrun : mass_function trivialResolvers [1/2, 2, 5] 2 (.edges [0, 1, 3]) none true none =
      (Except.ok (MF.table [(1/2, 1/2), (3/2, 1/2)], some [0, 1, 3]), []) := by
    rw [mf_edges_run]
    norm_num [histCounts, assemble, squeezeMF, List.filter]
  have h := C4_density_roundtrip trivialResolvers [1/2, 2, 5] 2 (.edges [0, 1, 3]) none none
    (MF.table [(1/2, 1/2), (3/2, 1/2)]) [0, 1, 3] [] hrun
    (by norm_num [List.chain'_cons, List.chain'_singleton]) (by norm_num)
    (by norm_num) (by norm_num)
  simpa [effSample] using h

/-! ### Claim theorem: pre-filtering before rule resolution (C6) -/

/-- C6: when a range is supplied and the bin specification is a recognized
rule name, the sample handed to the bin-width resolver is the filtrate of
the sample to the closed interval `[lo, hi]`: every value the resolver can
see lies in the range, and the output of `mass_function` depends on the
resolvers only through their behaviour on samples entirely inside the
range. -/
theorem C6_prefilter_before_resolution (R1 R2 : Resolvers) (mass : List ℚ)
    (volume : ℚ) (lo hi : ℚ) (s : String) (re : Bool) (nm : Option Bool)
    (hs : s ∈ ruleNames)
    (hagree : ∀ l : List ℚ, (∀ x ∈ l, lo ≤ x ∧ x ≤ hi) →
      R1.bayesian_blocks l = R2.bayesian_blocks l ∧
      R1.knuth_bin_width l = R2.knuth_bin_width l ∧
      R1.scotts_bin_width l = R2.scotts_bin_width l ∧
      R1.freedman_bin_width l = R2.freedman_bin_width l) :
    effSample mass (.name s) (some (lo, hi)) =
      (mass.filter fun x => decide (lo ≤ x) && decide (x ≤ hi)) ∧
    (∀ x ∈ effSample mass (.name s) (some (lo, hi)), lo ≤ x ∧ x ≤ hi) ∧
    mass_function R1 mass volume (.name s) (some (lo, hi)) re nm =
      mass_function R2 mass volume (.name s) (some (lo, hi)) re nm := by
  have hfilt : effSample mass (.name s) (some (lo, hi)) =
      (mass.filter fun x => decide (lo ≤ x) && decide (x ≤ hi)) := by
    simp [effSample, hs]
  have hin : ∀ x ∈ effSample mass (.name s) (some (lo, hi)), lo ≤ x ∧ x ≤ hi := by
    intro x hx
    rw [hfilt] at hx
    simp only [List.mem_filter, Bool.and_eq_true, decide_eq_true_eq] at hx
    exact hx.2
  refine ⟨hfilt, hin, ?_⟩
  obtain ⟨hbb, hkn, hsc, hfr⟩ := hagree _ hin
  simp only [ruleNames, List.mem_cons, List.not_mem_nil, or_false] at hs
  rcases hs with rfl | rfl | rfl | rfl | rfl | rfl | rfl <;>
    simp only [mass_function, hbb, hkn, hsc, hfr]

/-- Witness for C6 at `"blocks"`, range `[0, 1]`, a sample with one value
outside the range, and agreeing (identical) resolver bundles. -/
theorem C6_prefilter_before_resolution_witness :
    effSample [1/2, 2] (.name "blocks") (some (0, 1)) =
      ([(1 : ℚ)/2, 2].filter fun x => decide ((0 : ℚ) ≤ x) && decide (x ≤ 1)) ∧
    (∀ x ∈ effSample [1/2, 2] (.name "blocks") (some (0, 1)),
      (0 : ℚ) ≤ x ∧ x ≤ 1) ∧
    mass_function trivialResolvers [1/2, 2] 1 (.name "blocks") (some (0, 1)) false none =
      mass_function trivialResolvers [1/2, 2] 1 (.name "blocks") (some (0, 1)) false none :=
  C6_prefilter_before_resolution trivialResolvers trivialResolvers [1/2, 2] 1 0 1
    "blocks" false none (by decide) (fun _ _ => ⟨rfl, rfl, rfl, rfl⟩)

/-! ### Claim theorem: the normed flag is forced off (C7) -/

theorem mf_log_warn (R : Resolvers) (mass : List ℚ) (volume : ℚ)
    (bins : BinSpec) (rng : Option (ℚ × ℚ)) (re : Bool) (b : Bool) :
    "Turned of normed kwarg in mass_function()" ∈
      (mass_function R mass volume bins rng re (some b)).2 := by
  cases bins with
  | count n => rw [mf_run_count]; simp
  | edges es => rw [mf_run_edges]; simp
  | name s =>
      simp only [mass_function, Option.isSome_some]
      split_ifs <;> simp

/-- C7: supplying the `normed` flag (with either value) in the extra
histogram options never changes the returned value relative to omitting
it, because the flag is forced off before the histogram call; and whenever
the flag was present the overriding warning is logged. -/
theorem C7_normed_flag_overridden (R : Resolvers) (mass : List ℚ)
    (volume : ℚ) (bins : BinSpec) (rng : Option (ℚ × ℚ)) (re : Bool)
    (b : Bool) :
    (mass_function R mass volume bins rng re (some b)).1 =
      (mass_function R mass volume bins rng re none).1 ∧
    "Turned of normed kwarg in mass_function()" ∈
      (mass_function R mass volume bins rng re (some b)).2 := by
  refine ⟨?_, mf_log_warn R mass volume bins rng re b⟩
  cases bins with
  | count n => rfl
  | edges es => rfl
  | name s =>
      by_cases hmem : s ∈ ruleNames
      · simp only [ruleNames, List.mem_cons, List.not_mem_nil, or_false] at hmem
        rcases hmem with rfl | rfl | rfl | rfl | rfl | rfl | rfl <;> rfl
      · rw [mf_name_not_mem R mass volume rng re (some b) hmem,
          mf_name_not_mem R mass volume rng re none hmem]

/-! ### Claim theorem: bin count and monotone centers (C8) -/

theorem linspace_length (lo hi : ℚ) (n : ℕ) :
    (linspace lo hi n).length = n + 1 := by
  simp [linspace]

theorem linspace_dropLast (lo hi : ℚ) (n : ℕ) :
    (linspace lo hi n).dropLast =
      (List.range n).map fun i : ℕ => lo + (hi - lo) * (i : ℚ) / (n : ℚ) := by
  simp only [linspace, List.range_succ, List.map_append, List.map_cons,
    List.map_nil, List.dropLast_concat]

/-- C8: for an integer bin count `n ≥ 1` (and no explicit range) on a
non-degenerate sample, the result of `mass_function` has exactly `n`
`(center, density)` rows and the centers are strictly increasing. -/
theorem C8_row_count_monotone_centers (R : Resolvers) (mass : List ℚ)
    (volume : ℚ) (n : ℕ) (nm : Option Bool) (hn : 1 ≤ n)
    (hnd : listMin mass < listMax mass) :
    ∃ mf lg, mass_function R mass volume (.count n) none false nm =
        (Except.ok (mf, none), lg) ∧
      mf.rows.length = n ∧
      (mf.rows.map Prod.fst).Chain' (· < ·) := by
  obtain ⟨m, rfl⟩ : ∃ m, n = m + 1 := ⟨n - 1, by omega⟩
  have hne : listMin mass ≠ listMax mass := ne_of_lt hnd
  have hrun := mf_run_count R mass volume (m + 1) none false nm
  rw [np_histogram_normedEff] at hrun
  have heff : effSample mass (.count (m + 1)) none = mass := rfl
  have hedg : histEdges mass (.count (m + 1)) none =
      linspace (listMin mass) (listMax mass) (m + 1) := by
    simp [histEdges, outerEdges, hne]
  rw [heff, hedg] at hrun
  have hlen : ((histCounts mass (linspace (listMin mass) (listMax mass) (m + 1))).map
      (fun c : ℕ => (c : ℚ))).length =
      (linspace (listMin mass) (listMax mass) (m + 1)).length - 1 := by
    simp [histCounts_length]
  refine ⟨_, _, hrun, ?_, ?_⟩
  · rw [assemble_rows_length _ _ _ hlen, linspace_length]
    omega
  · rw [assemble_rows, List.map_fst_zip]
    · rw [linspace_dropLast, List.map_map, List.chain'_map]
      refine (List.chain'_range_succ _ m).mpr ?_
      intro i him
      simp only [Function.comp_apply]
      have hpos : (0 : ℚ) < listMax mass - listMin mass := sub_pos.mpr hnd
      have hx : ((i : ℕ) : ℚ) < ((i + 1 : ℕ) : ℚ) := by
        exact_mod_cast Nat.lt_succ_self i
      have hden : (0 : ℚ) < ((m + 1 : ℕ) : ℚ) := by
        exact_mod_cast Nat.succ_pos m
      apply add_lt_add_right
      apply add_lt_add_left
      rw [div_lt_div_iff_of_pos_right hden]
      exact mul_lt_mul_of_pos_left hx hpos
    · simp [List.length_map, List.length_dropLast, histCounts_length, linspace_length]

/-- Witness for C8 at `n = 2`, sample `[0, 1]`. -/
theorem C8_row_count_monotone_centers_witness :
    (1 ≤ 2 ∧ listMin [0, 1] < listMax [0, 1]) ∧
    ∃ mf lg, mass_function trivialResolvers [0, 1] 1 (.count 2) none false none =
        (Except.ok (mf, none), lg) ∧
      mf.rows.length = 2 ∧
      (mf.rows.map Prod.fst).Chain' (· < ·) :=
  ⟨⟨by norm_num, by decide⟩,
    C8_row_count_monotone_centers trivialResolvers [0, 1] 1 2 none (by norm_num)
      (by decide)⟩

/-! ### Claim theorem: single-bin squeeze (C9) -/

theorem linspace_one (lo hi : ℚ) : linspace lo hi 1 = [lo, hi] := by
  norm_num [linspace, List.range_succ]

/-- C9: with a single requested bin the stacked result is squeezed to a
flat `(center, density)` pair, not a one-row table. -/
theorem C9_single_bin_flat_pair (R : Resolvers) (mass : List ℚ)
    (volume : ℚ) (rng : Option (ℚ × ℚ)) (nm : Option Bool) :
    ∃ c d, (mass_function R mass volume (.count 1) rng false nm).1 =
      Except.ok (MF.pair c d, none) := by
  have hrun := mf_run_count R mass volume 1 rng false nm
  rw [np_histogram_normedEff] at hrun
  have hedg : histEdges (effSample mass (.count 1) rng) (.count 1) rng =
      [(outerEdges (effSample mass (.count 1) rng) rng).1,
        (outerEdges (effSample mass (.count 1) rng) rng).2] := by
    rw [show histEdges (effSample mass (.count 1) rng) (.count 1) rng =
      linspace (outerEdges (effSample mass (.count 1) rng) rng).1
        (outerEdges (effSample mass (.count 1) rng) rng).2 1 from rfl, linspace_one]
  rw [hedg] at hrun
  exact ⟨_, _, by rw [hrun]; rfl⟩
